import Mathlib

/-!
Verification of the rank/select binary-search algorithm of succinct-rs
(`src/select.rs`) and of the universal-code round-trip harness
(`src/coding/mod.rs`), via a shallow embedding in Lean.

Machine integers (`u64`) are modelled as `Nat`, with an explicit `% 2^64`
exactly where the Rust code performs arithmetic that can wrap (release-mode
semantics; the places where a debug build would instead trap on overflow are
noted at the definitions).  The `while` loop of `BinSearchSelect::select` is
modelled with an explicit fuel parameter; `SelectResult.fuelOut` marks runs
that exhaust their fuel, so divergence of the Rust loop corresponds to
`fuelOut` for every fuel value.
-/

namespace Succinct

/-- `2^64`, the size of the `u64` value space. -/
def U64 : Nat := 18446744073709551616

lemma U64_eq : U64 = 2 ^ 64 := by norm_num [U64]

/-- Wrapping `u64` subtraction of `1` (release-mode semantics of `x - 1`;
a debug build traps when `x = 0`). -/
def wsub1 (x : Nat) : Nat := (x + U64 - 1) % U64

/-- The `u64` computation `let rank = index + 1` at the top of
`BinSearchSelect::select` (src/select.rs:62): wraps at `index = u64::MAX`. -/
def targetOf (k : Nat) : Nat := (k + 1) % U64

/-- The overflow-free average `start/2 + limit/2 + (start % 2 + limit % 2)/2`
from src/select.rs:72.  All arithmetic stays below `max start limit`, so the
`Nat` value coincides with the `u64` value. -/
def midpoint (start limit : Nat) : Nat :=
  start / 2 + limit / 2 + (start % 2 + limit % 2) / 2

/-- A wrapped `Rank` view (the collaborator that `BinSearchSelect` borrows):
`rank i` models `R.rank(i)` and `bit_len` models `R.bit_len()`.  Both are
`u64`-valued in Rust; theorems that need those range facts take them as
explicit hypotheses. -/
structure RankView where
  rank : Nat → Nat
  bit_len : Nat

/-- The Rank contract of spec §3: `rank` is non-decreasing and moves by at
most 1 per position, with `rank(-1) := 0`, on the valid index domain
`[0, bit_len)`. -/
def RankContract (R : RankView) : Prop :=
  (1 ≤ R.bit_len → R.rank 0 ≤ 1) ∧
  ∀ i, i + 1 < R.bit_len →
    R.rank i ≤ R.rank (i + 1) ∧ R.rank (i + 1) ≤ R.rank i + 1

/-- Outcome of one `select` call.  `found p` models `return Some(mid)`,
`noneR` the early `return None`, `panicR` the `panic!` after the loop, and
`fuelOut` a run that did not finish within the given fuel (the Rust loop has
no fuel; a run that is `fuelOut` for every fuel diverges). -/
inductive SelectResult where
  | found (p : Nat)
  | noneR
  | panicR
  | fuelOut
  deriving DecidableEq

/-- Instrumented output of the binary-search loop: the result, the list of
indices passed to `rank` (in query order), and `ok = true` iff no `u64`
subtraction inside the loop underflowed during the run (the `mid - 1` of the
`limit = mid - 1` branch, and the `rank - 1` of the found-test, which Rust
only evaluates when `mid_rank == rank`). -/
structure LoopOut where
  res : SelectResult
  qs : List Nat
  ok : Bool
  deriving DecidableEq

/-- `pre_mid_rank` (src/select.rs:76): `if mid == 0 {0} else {rank(mid-1)}`. -/
def preRank (R : RankView) (mid : Nat) : Nat :=
  if mid = 0 then 0 else R.rank (mid - 1)

/-- The rank queries issued in one iteration: `rank(mid)` always, and
`rank(mid - 1)` when `mid ≠ 0`. -/
def qsOf (mid : Nat) : List Nat :=
  if mid = 0 then [mid] else [mid, mid - 1]

/-- `true` iff the found-test of this iteration does not underflow: Rust
evaluates `rank - 1` (src/select.rs:78) only when `mid_rank == rank`, and
that subtraction underflows exactly when the target `rank` is `0`. -/
def subOkStep (R : RankView) (target mid : Nat) : Bool :=
  !(decide (R.rank mid = target) && decide (target = 0))

/-- Combine one iteration's instrumentation with the rest of the run. -/
def stepOut (qs : List Nat) (ok : Bool) (out : LoopOut) : LoopOut :=
  ⟨out.res, qs ++ out.qs, ok && out.ok⟩

/-- The `while start < limit` loop of `BinSearchSelect::select`
(src/select.rs:70-89), with fuel.  Branches in source order:
the found-test, `pre_mid_rank > rank`, `pre_mid_rank == rank`,
`mid_rank < rank`, and the implicit no-op case in which no branch of the
`if`/`else if` chain applies and the state is left unchanged.
Falling out of the loop is the `panic!` path. -/
def selectLoop (R : RankView) (target : Nat) : Nat → Nat → Nat → LoopOut
  | 0, _, _ => ⟨SelectResult.fuelOut, [], true⟩
  | fuel + 1, start, limit =>
    if start < limit then
      if R.rank (midpoint start limit) = target ∧
          preRank R (midpoint start limit) = wsub1 target then
        ⟨SelectResult.found (midpoint start limit), qsOf (midpoint start limit),
          subOkStep R target (midpoint start limit)⟩
      else if target < preRank R (midpoint start limit) then
        stepOut (qsOf (midpoint start limit))
          (subOkStep R target (midpoint start limit) &&
            decide (1 ≤ midpoint start limit))
          (selectLoop R target fuel start (midpoint start limit - 1))
      else if preRank R (midpoint start limit) = target then
        stepOut (qsOf (midpoint start limit))
          (subOkStep R target (midpoint start limit))
          (selectLoop R target fuel start (midpoint start limit))
      else if R.rank (midpoint start limit) < target then
        stepOut (qsOf (midpoint start limit))
          (subOkStep R target (midpoint start limit))
          (selectLoop R target fuel (midpoint start limit + 1) limit)
      else
        stepOut (qsOf (midpoint start limit))
          (subOkStep R target (midpoint start limit))
          (selectLoop R target fuel start limit)
    else ⟨SelectResult.panicR, [], true⟩

/-- The index `rank_support.bit_len() - 1` computed by `BinSearchSelect::new`
(src/select.rs:23), as the `u64` wrapping subtraction: for `bit_len = 0` it
underflows to `2^64 - 1` (a debug build traps instead). -/
def newMaxIndex (R : RankView) : Nat := (R.bit_len + U64 - 1) % U64

/-- `max_rank` as cached by `BinSearchSelect::new` (src/select.rs:24):
`rank(bit_len - 1)` with the `u64` subtraction above. -/
def max_rank (R : RankView) : Nat := R.rank (newMaxIndex R)

/-- `BinSearchSelect::select` (src/select.rs:59-90): computes the wrapped
target `index + 1`, rejects targets above the cached `max_rank`, and
otherwise binary-searches `[0, bit_len)`. -/
def select (R : RankView) (k fuel : Nat) : LoopOut :=
  if max_rank R < targetOf k then ⟨SelectResult.noneR, [], true⟩
  else selectLoop R (targetOf k) fuel 0 R.bit_len

/-- The run of `select R k` never finishes, whatever its fuel: this is how a
diverging Rust loop shows up in the fuel model. -/
def divergesAt (R : RankView) (k : Nat) : Prop :=
  ∀ fuel, (select R k fuel).res = SelectResult.fuelOut

/-! ### Concrete rank views used as witnesses and counterexamples -/

/-- Rank view of the alternating store `01010101` (8 bits): bit `i` is set
iff `i` is odd, so `rank i = (i + 1) / 2`. -/
def altView : RankView := ⟨fun i => (i + 1) / 2, 8⟩

/-- Rank view of an all-zero 8-bit store. -/
def zeroView : RankView := ⟨fun _ => 0, 8⟩

/-- Rank view of the all-ones 1-bit store. -/
def onesView : RankView := ⟨fun _ => 1, 1⟩

/-- A contract-violating rank view: 1 bit, but `rank(0) = 2` (the rank jumps
by 2). -/
def brokenView : RankView := ⟨fun _ => 2, 1⟩

/-- An empty store: `bit_len = 0`. -/
def emptyView : RankView := ⟨fun _ => 0, 0⟩

/-! ### Basic arithmetic lemmas -/

lemma midpoint_bounds {start limit : Nat} (h : start < limit) :
    start ≤ midpoint start limit ∧ midpoint start limit < limit := by
  unfold midpoint; omega

lemma midpoint_eq (start limit : Nat) :
    midpoint start limit = (start + limit) / 2 := by
  unfold midpoint; omega

lemma wsub1_eq {t : Nat} (h1 : 1 ≤ t) (h2 : t < U64) : wsub1 t = t - 1 := by
  unfold wsub1
  have h : t + U64 - 1 = (t - 1) + U64 := by omega
  rw [h, Nat.add_mod_right, Nat.mod_eq_of_lt (by omega)]

lemma targetOf_eq {k : Nat} (h : k + 1 < U64) : targetOf k = k + 1 := by
  unfold targetOf; exact Nat.mod_eq_of_lt h

lemma newMaxIndex_eq {R : RankView} (h1 : 1 ≤ R.bit_len)
    (h2 : R.bit_len < U64) : newMaxIndex R = R.bit_len - 1 := by
  unfold newMaxIndex
  have h : R.bit_len + U64 - 1 = (R.bit_len - 1) + U64 := by omega
  rw [h, Nat.add_mod_right, Nat.mod_eq_of_lt (by omega)]

lemma max_rank_eq {R : RankView} (h1 : 1 ≤ R.bit_len) (h2 : R.bit_len < U64) :
    max_rank R = R.rank (R.bit_len - 1) := by
  unfold max_rank; rw [newMaxIndex_eq h1 h2]

/-! ### Consequences of the Rank contract -/

lemma rank_mono_add {R : RankView} (hc : RankContract R) :
    ∀ d i, i + d < R.bit_len → R.rank i ≤ R.rank (i + d) := by
  intro d
  induction d with
  | zero => intro i _; exact le_refl _
  | succ n ih =>
    intro i h
    have h1 : R.rank i ≤ R.rank (i + n) := ih i (by omega)
    have h2 : R.rank (i + n) ≤ R.rank (i + n + 1) := (hc.2 (i + n) (by omega)).1
    have h3 : i + n + 1 = i + (n + 1) := by omega
    rw [h3] at h2
    exact le_trans h1 h2

lemma rank_mono {R : RankView} (hc : RankContract R) {i j : Nat}
    (hij : i ≤ j) (hj : j < R.bit_len) : R.rank i ≤ R.rank j := by
  have := rank_mono_add hc (j - i) i (by omega)
  rwa [Nat.add_sub_cancel' hij] at this

lemma rank_le_idx {R : RankView} (hc : RankContract R) :
    ∀ i, i < R.bit_len → R.rank i ≤ i + 1 := by
  intro i
  induction i with
  | zero => intro h; exact hc.1 (by omega)
  | succ n ih =>
    intro h
    have h1 : R.rank (n + 1) ≤ R.rank n + 1 := (hc.2 n h).2
    have h2 : R.rank n ≤ n + 1 := ih (by omega)
    omega

/-- Under the contract, any value reached by the rank has an onset: a least
position `p` where the rank equals `target` exactly, with
`rank (p-1) = target - 1` (or `p = 0` with `target = 1`). -/
lemma exists_onset {R : RankView} (hc : RankContract R) {target m : Nat}
    (ht : 1 ≤ target) (hm : m < R.bit_len) (hr : target ≤ R.rank m) :
    ∃ p, p ≤ m ∧ R.rank p = target ∧ (∀ q, q < p → R.rank q < target) ∧
      ((p = 0 ∧ target = 1) ∨ (1 ≤ p ∧ R.rank (p - 1) = target - 1)) := by
  have hex : ∃ n, target ≤ R.rank n := ⟨m, hr⟩
  have hle : Nat.find hex ≤ m := Nat.find_min' hex hr
  have hspec : target ≤ R.rank (Nat.find hex) := Nat.find_spec hex
  have hmin : ∀ q, q < Nat.find hex → R.rank q < target := by
    intro q hq
    have := Nat.find_min hex hq
    omega
  refine ⟨Nat.find hex, hle, ?_, hmin, ?_⟩
  · rcases Nat.eq_zero_or_pos (Nat.find hex) with h0 | h0
    · rw [h0] at hspec ⊢
      have := hc.1 (by omega : 1 ≤ R.bit_len)
      omega
    · have hp : Nat.find hex - 1 + 1 = Nat.find hex := by omega
      have hlt : R.rank (Nat.find hex - 1) < target := hmin _ (by omega)
      have hstep : R.rank (Nat.find hex) ≤ R.rank (Nat.find hex - 1) + 1 := by
        have := (hc.2 (Nat.find hex - 1) (by omega)).2
        rwa [hp] at this
      omega
  · rcases Nat.eq_zero_or_pos (Nat.find hex) with h0 | h0
    · left
      rw [h0] at hspec ⊢
      have := hc.1 (by omega : 1 ≤ R.bit_len)
      exact ⟨rfl, by omega⟩
    · right
      refine ⟨h0, ?_⟩
      have hp : Nat.find hex - 1 + 1 = Nat.find hex := by omega
      have hlt : R.rank (Nat.find hex - 1) < target := hmin _ (by omega)
      have hstep : R.rank (Nat.find hex) ≤ R.rank (Nat.find hex - 1) + 1 := by
        have := (hc.2 (Nat.find hex - 1) (by omega)).2
        rwa [hp] at this
      omega

/-! ### Loop instrumentation helpers -/

@[simp] lemma stepOut_res (qs : List Nat) (ok : Bool) (out : LoopOut) :
    (stepOut qs ok out).res = out.res := rfl

@[simp] lemma stepOut_qs (qs : List Nat) (ok : Bool) (out : LoopOut) :
    (stepOut qs ok out).qs = qs ++ out.qs := rfl

@[simp] lemma stepOut_ok (qs : List Nat) (ok : Bool) (out : LoopOut) :
    (stepOut qs ok out).ok = (ok && out.ok) := rfl

lemma subOkStep_true {R : RankView} {target : Nat} (m : Nat)
    (ht : 1 ≤ target) : subOkStep R target m = true := by
  unfold subOkStep
  have hd : decide (target = 0) = false := decide_eq_false (by omega)
  rw [hd]
  simp

lemma mem_qsOf {m q : Nat} (h : q ∈ qsOf m) : q = m ∨ q = m - 1 := by
  unfold qsOf at h
  split at h <;> simp_all

/-! ### The binary-search invariant

Under the Rank contract, if `p` is the onset of `target` (least position
whose rank reaches `target`), then any loop state with `start ≤ p < limit`
leads the loop to return `Some p`, and with fuel larger than `limit - start`
it cannot even run out of fuel.  The no-op case of the branch chain is shown
unreachable along the way. -/

lemma loop_main {R : RankView} (hc : RankContract R) {target p : Nat}
    (ht : 1 ≤ target) (htu : target < U64)
    (hrp : R.rank p = target)
    (hlt : ∀ q, q < p → R.rank q < target)
    (hpre : (p = 0 ∧ target = 1) ∨ (1 ≤ p ∧ R.rank (p - 1) = target - 1)) :
    ∀ fuel start limit, limit ≤ R.bit_len → start ≤ p → p < limit →
      ((selectLoop R target fuel start limit).res = SelectResult.found p ∨
        (selectLoop R target fuel start limit).res = SelectResult.fuelOut) ∧
      (limit - start < fuel →
        (selectLoop R target fuel start limit).res = SelectResult.found p) := by
  intro fuel
  induction fuel with
  | zero =>
    intro start limit _ _ _
    exact ⟨Or.inr rfl, fun h => absurd h (by omega)⟩
  | succ f ih =>
    intro start limit hlim hsp hpl
    have hsl : start < limit := by omega
    simp only [selectLoop]
    rw [if_pos hsl]
    obtain ⟨hms, hml⟩ := midpoint_bounds hsl
    set m := midpoint start limit with hm
    rcases Nat.lt_trichotomy m p with hmp | hmp | hmp
    · -- the midpoint is left of the onset: `mid_rank < rank`, move `start` up
      have hrm : R.rank m < target := hlt m hmp
      have h1 : ¬(R.rank m = target ∧ preRank R m = wsub1 target) :=
        fun h => absurd h.1 (by omega)
      have hpm : preRank R m < target := by
        unfold preRank
        split
        · omega
        · exact hlt (m - 1) (by omega)
      rw [if_neg h1, if_neg (by omega : ¬target < preRank R m),
        if_neg (by omega : ¬preRank R m = target), if_pos hrm]
      simp only [stepOut_res]
      obtain ⟨ha, hb⟩ := ih (m + 1) limit hlim (by omega) hpl
      exact ⟨ha, fun hfu => hb (by omega)⟩
    · -- the midpoint is the onset: the found-test fires
      have h1 : R.rank m = target ∧ preRank R m = wsub1 target := by
        rw [hmp]
        refine ⟨hrp, ?_⟩
        rw [wsub1_eq ht htu]
        unfold preRank
        rcases hpre with ⟨hp0, ht1⟩ | ⟨hp1, hpr⟩
        · rw [if_pos hp0]; omega
        · rw [if_neg (by omega)]; omega
      rw [if_pos h1]
      exact ⟨Or.inl (by rw [hmp]), fun _ => by rw [hmp]⟩
    · -- the midpoint is right of the onset: `pre_mid_rank ≥ rank`, move
      -- `limit` down
      have hm1 : 1 ≤ m := by omega
      have hmb : m < R.bit_len := by omega
      have hpm : preRank R m = R.rank (m - 1) := by
        unfold preRank
        rw [if_neg (by omega)]
      have hge : target ≤ R.rank (m - 1) := by
        rw [← hrp]
        exact rank_mono hc (by omega) (by omega)
      have h1 : ¬(R.rank m = target ∧ preRank R m = wsub1 target) := by
        rw [wsub1_eq ht htu, hpm]
        intro h
        omega
      rcases eq_or_lt_of_le hge with heq | hlt2
      · -- `pre_mid_rank = rank`: shrink `limit` to `mid`
        rw [if_neg h1, if_neg (by omega : ¬target < preRank R m),
          if_pos (by omega : preRank R m = target)]
        simp only [stepOut_res]
        obtain ⟨ha, hb⟩ := ih start m (by omega) hsp hmp
        exact ⟨ha, fun hfu => hb (by omega)⟩
      · -- `pre_mid_rank > rank`: shrink `limit` to `mid - 1`
        have h2 : target < preRank R m := by rw [hpm]; exact hlt2
        rw [if_neg h1, if_pos h2]
        simp only [stepOut_res]
        have hne : p ≠ m - 1 := by
          intro he
          rw [← he] at hlt2
          omega
        obtain ⟨ha, hb⟩ := ih start (m - 1) (by omega) hsp (by omega)
        exact ⟨ha, fun hfu => hb (by omega)⟩

/-- Whenever the loop returns `Some p`, the found-test held at `p`, and `p`
lies inside the searched range. -/
lemma loop_found {R : RankView} {target : Nat} :
    ∀ fuel start limit p,
      (selectLoop R target fuel start limit).res = SelectResult.found p →
      R.rank p = target ∧ preRank R p = wsub1 target ∧ p < limit := by
  intro fuel
  induction fuel with
  | zero => intro start limit p h; exact absurd h (by simp [selectLoop])
  | succ f ih =>
    intro start limit p h
    simp only [selectLoop] at h
    by_cases hsl : start < limit
    · rw [if_pos hsl] at h
      obtain ⟨hms, hml⟩ := midpoint_bounds hsl
      set m := midpoint start limit with hm
      by_cases h1 : R.rank m = target ∧ preRank R m = wsub1 target
      · rw [if_pos h1] at h
        have hmp : m = p := by simpa using h
        have h1' := h1
        rw [hmp] at h1'
        exact ⟨h1'.1, h1'.2, by omega⟩
      · rw [if_neg h1] at h
        by_cases h2 : target < preRank R m
        · rw [if_pos h2] at h
          simp only [stepOut_res] at h
          obtain ⟨ha, hb, hcl⟩ := ih start (m - 1) p h
          exact ⟨ha, hb, by omega⟩
        · rw [if_neg h2] at h
          by_cases h3 : preRank R m = target
          · rw [if_pos h3] at h
            simp only [stepOut_res] at h
            obtain ⟨ha, hb, hcl⟩ := ih start m p h
            exact ⟨ha, hb, by omega⟩
          · rw [if_neg h3] at h
            by_cases h4 : R.rank m < target
            · rw [if_pos h4] at h
              simp only [stepOut_res] at h
              exact ih (m + 1) limit p h
            · rw [if_neg h4] at h
              simp only [stepOut_res] at h
              exact ih start limit p h
    · rw [if_neg hsl] at h
      exact absurd h (by simp)

/-- The loop itself never produces the early-return `None`. -/
lemma loop_ne_none {R : RankView} {target : Nat} :
    ∀ fuel start limit,
      (selectLoop R target fuel start limit).res ≠ SelectResult.noneR := by
  intro fuel
  induction fuel with
  | zero => intro start limit; simp [selectLoop]
  | succ f ih =>
    intro start limit
    simp only [selectLoop]
    by_cases hsl : start < limit
    · rw [if_pos hsl]
      set m := midpoint start limit with hm
      by_cases h1 : R.rank m = target ∧ preRank R m = wsub1 target
      · rw [if_pos h1]; simp
      · rw [if_neg h1]
        by_cases h2 : target < preRank R m
        · rw [if_pos h2]; simp only [stepOut_res]; exact ih _ _
        · rw [if_neg h2]
          by_cases h3 : preRank R m = target
          · rw [if_pos h3]; simp only [stepOut_res]; exact ih _ _
          · rw [if_neg h3]
            by_cases h4 : R.rank m < target
            · rw [if_pos h4]; simp only [stepOut_res]; exact ih _ _
            · rw [if_neg h4]; simp only [stepOut_res]; exact ih _ _
    · rw [if_neg hsl]; simp

/-- Index safety of the loop: with a non-wrapped target (`target ≥ 1`),
every issued rank query is in `[0, bit_len)` and no `u64` subtraction inside
the loop underflows. -/
lemma loop_safe {R : RankView} {target : Nat} (ht : 1 ≤ target) :
    ∀ fuel start limit, limit ≤ R.bit_len →
      (∀ q ∈ (selectLoop R target fuel start limit).qs, q < R.bit_len) ∧
      (selectLoop R target fuel start limit).ok = true := by
  intro fuel
  induction fuel with
  | zero => intro start limit _; simp [selectLoop]
  | succ f ih =>
    intro start limit hlim
    simp only [selectLoop]
    by_cases hsl : start < limit
    · rw [if_pos hsl]
      obtain ⟨hms, hml⟩ := midpoint_bounds hsl
      set m := midpoint start limit with hm
      have hqs : ∀ q ∈ qsOf m, q < R.bit_len := by
        intro q hq
        rcases mem_qsOf hq with h | h <;> omega
      by_cases h1 : R.rank m = target ∧ preRank R m = wsub1 target
      · rw [if_pos h1]
        exact ⟨hqs, subOkStep_true m ht⟩
      · rw [if_neg h1]
        by_cases h2 : target < preRank R m
        · rw [if_pos h2]
          have hm1 : 1 ≤ m := by
            by_contra hcon
            have hm0 : m = 0 := by omega
            rw [hm0] at h2
            unfold preRank at h2
            rw [if_pos rfl] at h2
            omega
          obtain ⟨iha, ihb⟩ := ih start (m - 1) (by omega)
          refine ⟨?_, ?_⟩
          · simp only [stepOut_qs]
            intro q hq
            rcases List.mem_append.1 hq with hq | hq
            · exact hqs q hq
            · exact iha q hq
          · simp only [stepOut_ok]
            rw [subOkStep_true m ht, ihb]
            simp [hm1]
        · rw [if_neg h2]
          by_cases h3 : preRank R m = target
          · rw [if_pos h3]
            obtain ⟨iha, ihb⟩ := ih start m (by omega)
            refine ⟨?_, ?_⟩
            · simp only [stepOut_qs]
              intro q hq
              rcases List.mem_append.1 hq with hq | hq
              · exact hqs q hq
              · exact iha q hq
            · simp only [stepOut_ok]
              rw [subOkStep_true m ht, ihb]
              simp
          · rw [if_neg h3]
            by_cases h4 : R.rank m < target
            · rw [if_pos h4]
              obtain ⟨iha, ihb⟩ := ih (m + 1) limit hlim
              refine ⟨?_, ?_⟩
              · simp only [stepOut_qs]
                intro q hq
                rcases List.mem_append.1 hq with hq | hq
                · exact hqs q hq
                · exact iha q hq
              · simp only [stepOut_ok]
                rw [subOkStep_true m ht, ihb]
                simp
            · rw [if_neg h4]
              obtain ⟨iha, ihb⟩ := ih start limit hlim
              refine ⟨?_, ?_⟩
              · simp only [stepOut_qs]
                intro q hq
                rcases List.mem_append.1 hq with hq | hq
                · exact hqs q hq
                · exact iha q hq
              · simp only [stepOut_ok]
                rw [subOkStep_true m ht, ihb]
                simp
    · rw [if_neg hsl]
      simp

/-- On the contract-violating view `brokenView` (rank jumps from 0 to 2 at
position 0), the search for target 1 takes none of the four branches: the
state never changes and the loop burns all its fuel. -/
lemma broken_loop (fuel : Nat) :
    (selectLoop brokenView 1 fuel 0 1).res = SelectResult.fuelOut := by
  induction fuel with
  | zero => rfl
  | succ f ih =>
    have hstep : selectLoop brokenView 1 (f + 1) 0 1 =
        stepOut (qsOf 0) (subOkStep brokenView 1 0)
          (selectLoop brokenView 1 f 0 1) := by
      simp only [selectLoop]
      rw [if_pos (by omega : (0 : Nat) < 1)]
      have hm : midpoint 0 1 = 0 := by decide
      rw [hm]
      rw [if_neg (by decide), if_neg (by decide), if_neg (by decide),
        if_neg (by decide)]
    rw [hstep]
    simp only [stepOut_res]
    exact ih

/-! ### Universal codes (`src/coding/mod.rs`)

Modelled from the spec: the `UniversalCode` trait and the concrete code
families (`traits.rs`, `unary.rs`, `elias.rs`, `fib.rs`, `trans.rs`) are not
part of the available sources — only the module file with the test harness
`code_decode` is.  Following spec §4.3, a code family is a pair
encode/decode over an abstract bit sequence; `decode` returns the value read
together with the unconsumed rest of the stream, or `none` for the harness's
stop condition (end of input or malformed pattern). -/
structure UniversalCode where
  encode : Nat → List Bool
  decode : List Bool → Option (Nat × List Bool)

/-- Modelled from the spec: the round-trip law of spec §4.3 for a family
with representable-domain `dom` — decoding the bits written for a
strictly-positive representable `v` (followed by anything) yields exactly
`v` and consumes exactly the encoded bits, and decoding an exhausted stream
reports end of input. -/
def RoundTrip (C : UniversalCode) (dom : Nat → Prop) : Prop :=
  (∀ v rest, dom v → 1 ≤ v →
    C.decode (C.encode v ++ rest) = some (v, rest)) ∧
  C.decode [] = none

/-- The encoding half of `code_decode` (src/coding/mod.rs:29-31): each value
is biased by `+ 1` and the patterns are concatenated back-to-back. -/
def encodeAll (C : UniversalCode) : List Nat → List Bool
  | [] => []
  | v :: vs => C.encode (v + 1) ++ encodeAll C vs

/-- The decoding half of `code_decode` (src/coding/mod.rs:33-36): decode
while possible, unbiasing each value by `- 1`.  The Rust `while let` loop is
unfueled; `fuel` bounds the number of iterations here, and any
`fuel > length vec` is enough. -/
def decodeLoop (C : UniversalCode) : Nat → List Bool → List Nat → List Nat
  | 0, _, acc => acc.reverse
  | fuel + 1, bits, acc =>
    match C.decode bits with
    | some (i, rest) => decodeLoop C fuel rest ((i - 1) :: acc)
    | none => acc.reverse

/-- The property checked by the test harness `code_decode`
(src/coding/mod.rs:27-39): encode a sequence, decode it back, compare. -/
def code_decode (C : UniversalCode) (vec : List Nat) (fuel : Nat) : Bool :=
  decide (decodeLoop C fuel (encodeAll C vec) [] = vec)

lemma decodeLoop_encodeAll (C : UniversalCode) (dom : Nat → Prop)
    (hrt : RoundTrip C dom) :
    ∀ (vec : List Nat) (fuel : Nat) (acc : List Nat),
      vec.length < fuel → (∀ v ∈ vec, dom (v + 1)) →
      decodeLoop C fuel (encodeAll C vec) acc = acc.reverse ++ vec := by
  intro vec
  induction vec with
  | nil =>
    intro fuel acc hf _
    match fuel, hf with
    | fuel + 1, _ =>
      simp only [encodeAll, decodeLoop]
      rw [hrt.2]
      simp
  | cons v vs ih =>
    intro fuel acc hf hv
    match fuel, hf with
    | fuel + 1, hf =>
      have hdv : C.decode (C.encode (v + 1) ++ encodeAll C vs) =
          some (v + 1, encodeAll C vs) :=
        hrt.1 (v + 1) (encodeAll C vs) (hv v (by simp)) (by omega)
      simp only [encodeAll, decodeLoop]
      simp only [hdv]
      have hrec := ih fuel ((v + 1 - 1) :: acc) (by simpa using hf)
        (fun w hw => hv w (by simp [hw]))
      rw [hrec]
      simp

/-! ### Modelled from the spec: a concrete unary code family, used to
witness the round-trip theorem (`unary.rs` is not in the sources).  The
pattern for `v` is `v` one-bits followed by a zero-bit. -/

def unaryEncode (v : Nat) : List Bool := List.replicate v true ++ [false]

def unaryDecode : List Bool → Option (Nat × List Bool)
  | [] => none
  | false :: rest => some (0, rest)
  | true :: rest =>
    match unaryDecode rest with
    | some (n, r) => some (n + 1, r)
    | none => none

def unaryCode : UniversalCode := ⟨unaryEncode, unaryDecode⟩

lemma unaryDecode_encode (v : Nat) :
    ∀ rest, unaryDecode (unaryEncode v ++ rest) = some (v, rest) := by
  induction v with
  | zero => intro rest; rfl
  | succ n ih =>
    intro rest
    have h : unaryEncode (n + 1) = true :: unaryEncode n := by
      simp [unaryEncode, List.replicate_succ]
    rw [h]
    simp only [List.cons_append, unaryDecode, List.append_eq]
    simp only [ih rest]

lemma unary_round_trip : RoundTrip unaryCode (fun _ => True) :=
  ⟨fun v rest _ _ => unaryDecode_encode v rest, rfl⟩

lemma altView_contract : RankContract altView := by
  refine ⟨fun _ => by decide, fun i hi => ?_⟩
  show (i + 1) / 2 ≤ (i + 1 + 1) / 2 ∧ (i + 1 + 1) / 2 ≤ (i + 1) / 2 + 1
  omega

/-! ### The claims -/

/-- C1: Rank/Select duality — whenever `select k` returns `Some p` for a `k`
in `[0, max_rank)`, the rank at `p` is `k + 1` and either `p = 0` or the
rank at `p - 1` is `k`.  The bound `max_rank R < U64` records that rank
values are `u64` in the source. -/
theorem C1_rank_select_duality (R : RankView) (k fuel p : Nat)
    (hk : k < max_rank R) (hmu : max_rank R < U64)
    (hf : (select R k fuel).res = SelectResult.found p) :
    R.rank p = k + 1 ∧ (p = 0 ∨ R.rank (p - 1) = k) := by
  have htu : k + 1 < U64 := by omega
  unfold select at hf
  by_cases hg : max_rank R < targetOf k
  · rw [if_pos hg] at hf
    exact absurd hf (by simp)
  · rw [if_neg hg] at hf
    obtain ⟨ha, hb, _⟩ := loop_found fuel 0 R.bit_len p hf
    rw [targetOf_eq htu] at ha hb
    rw [wsub1_eq (by omega) htu] at hb
    refine ⟨ha, ?_⟩
    by_cases hp : p = 0
    · exact Or.inl hp
    · right
      unfold preRank at hb
      rw [if_neg hp] at hb
      omega

theorem C1_rank_select_duality_witness :
    0 < max_rank altView ∧ max_rank altView < U64 ∧
      (select altView 0 9).res = SelectResult.found 1 ∧
      (altView.rank 1 = 0 + 1 ∧ (1 = 0 ∨ altView.rank (1 - 1) = 0)) :=
  ⟨by decide, by decide, by decide,
    C1_rank_select_duality altView 0 9 1 (by decide) (by decide) (by decide)⟩

/-- C2: under the Rank contract on a non-empty store, `select k` with
`k + 1 ≤ max_rank` returns `Some` from inside the loop (fuel `bit_len + 1`
suffices for the loop to finish), and the fatal `panic!` path after the loop
is unreachable at every fuel. -/
theorem C2_contract_loop_finds (R : RankView) (hc : RankContract R)
    (hb : 1 ≤ R.bit_len) (hbu : R.bit_len < U64) (k : Nat)
    (hk : k + 1 ≤ max_rank R) :
    (∃ p, (select R k (R.bit_len + 1)).res = SelectResult.found p) ∧
    ∀ fuel, (select R k fuel).res ≠ SelectResult.panicR := by
  have hmr : max_rank R = R.rank (R.bit_len - 1) := max_rank_eq hb hbu
  have hml : max_rank R ≤ R.bit_len := by
    rw [hmr]
    have := rank_le_idx hc (R.bit_len - 1) (by omega)
    omega
  have htu : k + 1 < U64 := by omega
  have hrk : k + 1 ≤ R.rank (R.bit_len - 1) := by omega
  obtain ⟨p, hpm, hrp, hlt, hpre⟩ :=
    exists_onset hc (by omega) (by omega) hrk
  have hguard : ¬(max_rank R < targetOf k) := by rw [targetOf_eq htu]; omega
  have hsel : ∀ fuel, select R k fuel = selectLoop R (k + 1) fuel 0 R.bit_len := by
    intro fuel
    unfold select
    rw [if_neg hguard, targetOf_eq htu]
  constructor
  · refine ⟨p, ?_⟩
    rw [hsel]
    exact (loop_main hc (by omega) htu hrp hlt hpre (R.bit_len + 1) 0
      R.bit_len (le_refl _) (by omega) (by omega)).2 (by omega)
  · intro fuel
    rw [hsel]
    have := (loop_main hc (by omega) htu hrp hlt hpre fuel 0 R.bit_len
      (le_refl _) (by omega) (by omega)).1
    rcases this with h | h <;> rw [h] <;> simp

theorem C2_contract_loop_finds_witness :
    1 ≤ altView.bit_len ∧ altView.bit_len < U64 ∧
      0 + 1 ≤ max_rank altView ∧
      (select altView 0 7).res ≠ SelectResult.panicR :=
  ⟨by decide, by decide, by decide,
    (C2_contract_loop_finds altView altView_contract (by decide) (by decide)
      0 (by decide)).2 7⟩

/-- C3 (amended): for every `k` strictly below `2^64 - 1` whose target
`k + 1` exceeds `max_rank`, `select` returns `None` immediately and issues
no rank query.  At `k = 2^64 - 1` the computed target wraps to 0 and the
guard does not reject — see the counterexample. -/
theorem C3_out_of_domain_none (R : RankView) (k fuel : Nat)
    (hk : k < U64 - 1) (hm : max_rank R < k + 1) :
    select R k fuel = ⟨SelectResult.noneR, [], true⟩ := by
  unfold select
  rw [targetOf_eq (by omega), if_pos hm]

theorem C3_out_of_domain_none_witness :
    0 < U64 - 1 ∧ max_rank zeroView < 0 + 1 ∧
      select zeroView 0 3 = ⟨SelectResult.noneR, [], true⟩ :=
  ⟨by decide, by decide,
    C3_out_of_domain_none zeroView 0 3 (by decide) (by decide)⟩

/-- C3 counterexample: at `k = 2^64 - 1` — which satisfies `k + 1 > max_rank`
for this all-ones 1-bit store — `select` does not return `None` and does
perform a rank query: the wrapped target 0 passes the guard, `rank(0)` is
queried, and the run falls through to the `panic!` path. -/
theorem C3_wrap_not_rejected_cex :
    max_rank onesView < (U64 - 1) + 1 ∧
      select onesView (U64 - 1) 5 = ⟨SelectResult.panicR, [0], true⟩ := by
  constructor <;> decide

/-- C4 (code bug): `BinSearchSelect::new` has no guard for the empty store.
For `bit_len = 0` it computes `bit_len - 1` by unsigned underflow — index
`2^64 - 1` (a debug build traps at the subtraction) — which is at or beyond
`bit_len` of every store, so the subsequent `rank` call is out of domain
instead of the claimed `max_rank = 0` treatment. -/
theorem C4_empty_store_underflow :
    emptyView.bit_len = 0 ∧ newMaxIndex emptyView = U64 - 1 ∧
      emptyView.bit_len ≤ newMaxIndex emptyView :=
  ⟨rfl, by decide, by decide⟩

/-- C5 (code bug): on a Rank view that violates the contract by jumping from
0 to 2 at position 0, the in-domain query `select 0` (`0 + 1 ≤ max_rank`)
never terminates: no branch of the loop's `if`/`else if` chain applies
(`mid_rank = 2 > target = 1` yet `pre_mid_rank = 0` matches no case), the
state never changes, and the loop neither returns nor reaches the
descriptive `panic!` after it. -/
theorem C5_broken_rank_diverges :
    0 + 1 ≤ max_rank brokenView ∧ divergesAt brokenView 0 := by
  refine ⟨by decide, ?_⟩
  intro fuel
  have hsel : select brokenView 0 fuel = selectLoop brokenView 1 fuel 0 1 := rfl
  rw [hsel]
  exact broken_loop fuel

/-- C6: the split midpoint expression equals the exact floor average
computed without wrapping, all intermediate values stay within the `u64`
range, and the debug assertion `start ≤ mid < limit` always holds. -/
theorem C6_midpoint_safe (start limit : Nat) (hs : start < U64)
    (hl : limit < U64) (h : start < limit) :
    midpoint start limit = (start + limit) / 2 ∧
    start ≤ midpoint start limit ∧ midpoint start limit < limit ∧
    midpoint start limit < U64 ∧
    start / 2 + limit / 2 ≤ midpoint start limit ∧
    start % 2 + limit % 2 ≤ 2 := by
  unfold midpoint
  omega

theorem C6_midpoint_safe_witness :
    4 < U64 ∧ 9 < U64 ∧ 4 < 9 ∧
      (midpoint 4 9 = (4 + 9) / 2 ∧ 4 ≤ midpoint 4 9 ∧ midpoint 4 9 < 9 ∧
        midpoint 4 9 < U64 ∧ 4 / 2 + 9 / 2 ≤ midpoint 4 9 ∧
        4 % 2 + 9 % 2 ≤ 2) :=
  ⟨by decide, by decide, by decide,
    C6_midpoint_safe 4 9 (by decide) (by decide) (by decide)⟩

/-- C7: select monotonicity — under the Rank contract, positions found for
valid `k1 < k2` satisfy `p1 < p2`. -/
theorem C7_select_monotone (R : RankView) (hc : RankContract R)
    (k1 k2 p1 p2 f1 f2 : Nat) (h12 : k1 < k2) (hk2 : k2 + 1 ≤ max_rank R)
    (hmu : max_rank R < U64)
    (h1 : (select R k1 f1).res = SelectResult.found p1)
    (h2 : (select R k2 f2).res = SelectResult.found p2) : p1 < p2 := by
  have ht1 : k1 + 1 < U64 := by omega
  have ht2 : k2 + 1 < U64 := by omega
  have e1 : R.rank p1 = k1 + 1 ∧ p1 < R.bit_len := by
    unfold select at h1
    by_cases hg : max_rank R < targetOf k1
    · rw [if_pos hg] at h1
      exact absurd h1 (by simp)
    · rw [if_neg hg] at h1
      obtain ⟨ha, _, hcl⟩ := loop_found f1 0 R.bit_len p1 h1
      rw [targetOf_eq ht1] at ha
      exact ⟨ha, hcl⟩
  have e2 : R.rank p2 = k2 + 1 := by
    unfold select at h2
    by_cases hg : max_rank R < targetOf k2
    · rw [if_pos hg] at h2
      exact absurd h2 (by simp)
    · rw [if_neg hg] at h2
      obtain ⟨ha, _, _⟩ := loop_found f2 0 R.bit_len p2 h2
      rw [targetOf_eq ht2] at ha
      exact ha
  by_contra hcon
  have hle : p2 ≤ p1 := by omega
  have hmono := rank_mono hc hle e1.2
  have ha1 := e1.1
  omega

theorem C7_select_monotone_witness :
    0 < 1 ∧ 1 + 1 ≤ max_rank altView ∧ max_rank altView < U64 ∧
      (select altView 0 9).res = SelectResult.found 1 ∧
      (select altView 1 9).res = SelectResult.found 3 ∧ 1 < 3 :=
  ⟨by decide, by decide, by decide, by decide, by decide,
    C7_select_monotone altView altView_contract 0 1 1 3 9 9 (by decide)
      (by decide) (by decide) (by decide) (by decide)⟩

/-- C8: the universal-code round-trip law lifts to sequences — for every
code family satisfying the per-value round-trip contract on its
representable domain, the harness property holds: encoding a sequence with
the `+1` bias back-to-back into one stream and decoding repeatedly
reproduces the sequence exactly, with the stream exhausted afterward. -/
theorem C8_round_trip (C : UniversalCode) (dom : Nat → Prop)
    (hrt : RoundTrip C dom) (vec : List Nat)
    (hv : ∀ v ∈ vec, dom (v + 1)) (fuel : Nat) (hf : vec.length < fuel) :
    code_decode C vec fuel = true := by
  unfold code_decode
  rw [decodeLoop_encodeAll C dom hrt vec fuel [] hf hv]
  simp

theorem C8_round_trip_witness :
    List.length [0, 1, 2] < 4 ∧ code_decode unaryCode [0, 1, 2] 4 = true :=
  ⟨by decide,
    C8_round_trip unaryCode (fun _ => True) unary_round_trip [0, 1, 2]
      (fun v _ => trivial) 4 (by decide)⟩

/-- C9 (amended): for every query `k < 2^64 - 1` — so the computed target
does not wrap — every rank query issued during `select` on a non-empty
store has an in-domain argument, and no `u64` subtraction inside the loop
underflows.  At `k = 2^64 - 1` the wrapped target 0 lets the found-test's
`rank - 1` subtraction underflow; see the counterexample. -/
theorem C9_loop_index_safety (R : RankView) (k fuel : Nat)
    (hb : 1 ≤ R.bit_len) (hk : k < U64 - 1) :
    (∀ q ∈ (select R k fuel).qs, q < R.bit_len) ∧
    (select R k fuel).ok = true := by
  have htar : targetOf k = k + 1 := targetOf_eq (by omega)
  unfold select
  by_cases hg : max_rank R < targetOf k
  · rw [if_pos hg]
    exact ⟨fun q hq => absurd hq (by simp), rfl⟩
  · rw [if_neg hg, htar]
    exact loop_safe (by omega) fuel 0 R.bit_len (le_refl _)

theorem C9_loop_index_safety_witness :
    1 ≤ altView.bit_len ∧ 0 < U64 - 1 ∧
      (select altView 0 9).ok = true :=
  ⟨by decide, by decide,
    (C9_loop_index_safety altView 0 9 (by decide) (by decide)).2⟩

/-- C9 counterexample: on the all-zero 8-bit store, the run of
`select (2^64 - 1)` — whose target wraps to 0 — evaluates the found-test's
`rank - 1` with `rank = 0` at every midpoint (Rust only evaluates it when
`mid_rank == rank`, which holds here): a `u64` subtraction inside the loop
underflows, so the instrumentation flag is `false` (a debug build traps). -/
theorem C9_value_sub_underflow_cex :
    1 ≤ zeroView.bit_len ∧ (select zeroView (U64 - 1) 9).ok = false := by
  constructor <;> decide

/-- C10: the target computation `rank = index + 1` wraps at the interface:
`targetOf` maps `2^64 - 1` to 0, which never exceeds `max_rank`, so such a
query is not rejected by the out-of-domain guard; for every `k < 2^64 - 1`
the computation is exact. -/
theorem C10_target_wrap (k : Nat) (hk : k < U64 - 1) (R : RankView)
    (fuel : Nat) :
    targetOf (U64 - 1) = 0 ∧ targetOf k = k + 1 ∧
    (select R (U64 - 1) fuel).res ≠ SelectResult.noneR := by
  refine ⟨by decide, targetOf_eq (by omega), ?_⟩
  unfold select
  have hg : ¬(max_rank R < targetOf (U64 - 1)) := by
    have h0 : targetOf (U64 - 1) = 0 := by decide
    rw [h0]
    omega
  rw [if_neg hg]
  exact loop_ne_none fuel 0 R.bit_len

theorem C10_target_wrap_witness :
    5 < U64 - 1 ∧
      (targetOf (U64 - 1) = 0 ∧ targetOf 5 = 5 + 1 ∧
        (select zeroView (U64 - 1) 3).res ≠ SelectResult.noneR) :=
  ⟨by decide, C10_target_wrap 5 (by decide) zeroView 3⟩

end Succinct
